import Mathlib

/-!
Verification of the News-bot cron handler (api/cron.js, digest variant).

Strings of the JavaScript source are modelled as lists of characters
(List Char); the external HTTP collaborators (the Upstash cache and the
Slack endpoint) are modelled by explicit outcome values supplied to the
pipeline functions, so that one run of the handler is a pure function of
the feed items and of the outcomes of its external calls.
-/

namespace NewsBot

/-- Whitespace class of the JavaScript regular expression class backslash-s:
the ASCII whitespace characters together with the common Unicode space
characters. -/
def jsWs (c : Char) : Bool :=
  c = ' ' || c = '\t' || c = '\n' || c = '\r' || c = '\x0b' || c = '\x0c' ||
  c = '\u00a0' || c = '\u2028' || c = '\u2029' || c = '\ufeff'

/-- One pass of the replacement of every maximal whitespace run by a single
space (the source replace of the global whitespace-run pattern with a
space).  The Boolean argument records whether the previous character was
part of a whitespace run. -/
def collapseAux : Bool → List Char → List Char
  | _, [] => []
  | inRun, c :: cs =>
    if jsWs c then
      if inRun then collapseAux true cs else ' ' :: collapseAux true cs
    else c :: collapseAux false cs

/-- The source expression summary.replace of whitespace runs by one space. -/
def collapseWs (l : List Char) : List Char := collapseAux false l

def trimLeft (l : List Char) : List Char := l.dropWhile jsWs

def trimRight (l : List Char) : List Char := (l.reverse.dropWhile jsWs).reverse

/-- JavaScript trim on the model whitespace class. -/
def jsTrim (l : List Char) : List Char := trimRight (trimLeft l)

/-- JavaScript toLowerCase, modelled characterwise. -/
def lowerStr (l : List Char) : List Char := l.map Char.toLower

/-- High-signal keyword list of scoreArticle (digest variant of the source). -/
def highTerms : List (List Char) :=
  ["funding".data, "raises".data, "acquisition".data, "acqui".data, "outage".data,
   "breach".data, "open source".data, "partnership".data, "launch".data,
   "announced".data, "milestone".data, "data center".data, "datacentre".data,
   "colocation".data, "colo".data, "hyperscale".data, "megawatt".data,
   "grid".data, "cooling".data, "liquid cooling".data]

/-- Infrastructure-vendor keyword list of scoreArticle (digest variant). -/
def infraTerms : List (List Char) :=
  ["h100".data, "h200".data, "mi300".data, "gpu".data, "accelerator".data,
   "nvidia".data, "amd".data, "intel".data]

/-- The first list is a prefix of the second. -/
def startsWithL : List Char → List Char → Bool
  | [], _ => true
  | _ :: _, [] => false
  | a :: as, b :: bs => a = b && startsWithL as bs

/-- JavaScript includes: the first list occurs as a contiguous substring of
the second. -/
def containsSub (needle : List Char) : List Char → Bool
  | [] => startsWithL needle []
  | c :: rest => startsWithL needle (c :: rest) || containsSub needle rest

/-- scoreArticle from the source: lowercase the concatenation
title ++ " " ++ contentSnippet, then add 3 for every high term contained
as a substring and 2 for every infrastructure term contained as a
substring (the source tests containment once per term with includes). -/
def scoreArticle (title contentSnippet : List Char) : Nat :=
  let txt := lowerStr (title ++ ' ' :: contentSnippet)
  let s := highTerms.foldl (fun s h => if containsSub h txt then s + 3 else s) 0
  infraTerms.foldl (fun s g => if containsSub g txt then s + 2 else s) s

/-- The lowercased haystack scoreArticle matches against. -/
def scoreText (title contentSnippet : List Char) : List Char :=
  lowerStr (title ++ ' ' :: contentSnippet)

-- Scoring as a weighted count of matching terms.

theorem foldl_if_add (k : Nat) (p : List Char → Bool) :
    ∀ (l : List (List Char)) (init : Nat),
      l.foldl (fun s h => if p h then s + k else s) init = init + k * l.countP p := by
  intro l
  induction l with
  | nil => intro init; simp
  | cons h t ih =>
    intro init
    by_cases hp : p h
    · simp [List.countP_cons, hp, ih, Nat.mul_add, Nat.mul_one]
      omega
    · simp [List.countP_cons, hp, ih]

theorem scoreArticle_eq_counts (title contentSnippet : List Char) :
    scoreArticle title contentSnippet =
      3 * highTerms.countP (fun h => containsSub h (scoreText title contentSnippet))
      + 2 * infraTerms.countP (fun g => containsSub g (scoreText title contentSnippet)) := by
  unfold scoreArticle scoreText
  rw [foldl_if_add, foldl_if_add]
  omega

theorem scoreArticle_le_76 (title contentSnippet : List Char) :
    scoreArticle title contentSnippet ≤ 76 := by
  rw [scoreArticle_eq_counts]
  have h1 : highTerms.countP
      (fun h => containsSub h (scoreText title contentSnippet)) ≤ 20 :=
    le_trans (List.countP_le_length _) (by decide)
  have h2 : infraTerms.countP
      (fun g => containsSub g (scoreText title contentSnippet)) ≤ 8 :=
    le_trans (List.countP_le_length _) (by decide)
  omega

/-! ### Summary condenser (makeSummaryBullets) -/

/-- A character after which a sentence boundary may occur. -/
def isPunctEnd (c : Char) : Bool := c = '.' || c = '?' || c = '!'

/-- The last character consumed into the current (reversed) piece is
sentence punctuation. -/
def headIsPunct : List Char → Bool
  | [] => false
  | c :: _ => isPunctEnd c

/-- Split on the lookbehind pattern of the source: a maximal whitespace run
whose immediately preceding character is ., ? or ! separates two pieces
and is dropped.  The Boolean argument is true while the scan is inside
such a separator run; the list argument is the reversed current piece. -/
def splitSentAux : Bool → List Char → List Char → List (List Char)
  | _, cur, [] => [cur.reverse]
  | false, cur, c :: cs =>
    if jsWs c && headIsPunct cur then cur.reverse :: splitSentAux true [] cs
    else splitSentAux false (c :: cur) cs
  | true, cur, c :: cs =>
    if jsWs c then splitSentAux true cur cs
    else splitSentAux false (c :: cur) cs

/-- The sentence split of the source applied to the cleaned string. -/
def splitSentences (l : List Char) : List (List Char) := splitSentAux false [] l

/-- Pieces of the split, trimmed, with empty pieces dropped (the source
chain split, map trim, filter Boolean). -/
def sentencesOf (cleaned : List Char) : List (List Char) :=
  ((splitSentences cleaned).map jsTrim).filter (fun s => !s.isEmpty)

/-- JavaScript indexOf of a single character from a start position. -/
def indexOfFrom (l : List Char) (c : Char) (start : Nat) : Option Nat :=
  match (l.drop start).findIdx? (fun d => d = c) with
  | some j => some (start + j)
  | none => none

/-- The cleaned form of a summary: whitespace runs collapsed, then trimmed. -/
def cleanOf (summary : List Char) : List Char := jsTrim (collapseWs summary)

/-- makeSummaryBullets from the source: empty input gives no bullets, at
least maxBullets sentences give the first maxBullets of them, a single
sentence longer than 180 characters is cut at the first space at or after
its midpoint, and otherwise the available sentences are returned. -/
def makeSummaryBullets (summary : List Char) (maxBullets : Nat) : List (List Char) :=
  if summary.isEmpty then []
  else
    let cleaned := cleanOf summary
    if cleaned.isEmpty then []
    else
      let sentences := sentencesOf cleaned
      if maxBullets ≤ sentences.length then sentences.take maxBullets
      else if sentences.length = 1 ∧ 180 < cleaned.length then
        match indexOfFrom cleaned ' ' (cleaned.length / 2) with
        | some splitIdx => [jsTrim (cleaned.take splitIdx), jsTrim (cleaned.drop splitIdx)]
        | none => sentences
      else sentences

/-! ### Pipeline data model -/

/-- A parsed feed entry as the handler builds it (entries without a link
are discarded before this point). -/
structure Article where
  title : List Char
  url : List Char
  summary : List Char
  src : List Char
  published : List Char
  deriving DecidableEq

/-- An article together with its computed score. -/
structure Scored extends Article where
  score : Nat
  deriving DecidableEq

/-- The scored-article construction of the handler: spread the item and
attach scoreArticle of its title and summary. -/
def addScore (a : Article) : Scored :=
  ⟨a, scoreArticle a.title a.summary⟩

/-- Stable insertion into a list sorted by descending score: the new
element goes in front of the first entry whose score is not larger, so an
element earlier in the input stays in front of later elements of equal
score. -/
def insertDesc (a : Scored) : List Scored → List Scored
  | [] => [a]
  | b :: bs => if b.score ≤ a.score then a :: b :: bs else b :: insertDesc a bs

/-- Stable descending sort by score, the model of the stable Array sort of
the source with comparator subtracting scores. -/
def sortByScoreDesc : List Scored → List Scored
  | [] => []
  | x :: xs => insertDesc x (sortByScoreDesc xs)

/-- The ScoreAndFilter stage of the handler: map addScore, keep the items
scoring at least minScore, sort by descending score. -/
def scoreFilterSort (minScore : Nat) (items : List Article) : List Scored :=
  sortByScoreDesc ((items.map addScore).filter (fun it => minScore ≤ it.score))

/-! ### Cache client model -/

/-- Outcome of one fetch of the cache GET endpoint: the underlying fetch
can reject (the store is unreachable), or it yields a response with an ok
flag and the parsed result field of the body. -/
inductive GetOutcome where
  | thrown : GetOutcome
  | resp : Bool → Option (List Char) → GetOutcome
  deriving DecidableEq

/-- upstashGet from the source: a rejected fetch propagates as an
exception out of the function; a response with ok false yields null;
otherwise the result field of the body is returned. -/
def upstashGet : GetOutcome → Except Unit (Option (List Char))
  | GetOutcome.thrown => Except.error ()
  | GetOutcome.resp ok result => Except.ok (if ok then result else none)

/-- JavaScript truthiness of the value the handler binds to seen: null and
the empty string are falsy, any other string is truthy. -/
def truthyStrOpt : Option (List Char) → Bool
  | none => false
  | some s => !s.isEmpty

/-- The seen check the loop performs for one article: the value of
upstashGet at the fingerprint key of its url, tested for truthiness.
An oracle maps a cache key to the outcome of the GET call for it and fp
models the fingerprint function sha1Hex. -/
def seenB (oracle : List Char → GetOutcome) (fp : List Char → List Char)
    (it : Scored) : Bool :=
  match upstashGet (oracle (fp it.url)) with
  | Except.error _ => false
  | Except.ok v => truthyStrOpt v

/-- The DedupeAndCap loop of the handler: walk the sorted list, skip items
whose seen check is truthy, append the rest to fresh, and return as soon
as fresh holds postMax items.  An exception of the GET call propagates and
aborts the whole run. -/
def dedupeCapAuxM (oracle : List Char → GetOutcome) (fp : List Char → List Char)
    (postMax : Nat) : List Scored → List Scored → Except Unit (List Scored)
  | fresh, [] => Except.ok fresh
  | fresh, it :: rest =>
    match upstashGet (oracle (fp it.url)) with
    | Except.error e => Except.error e
    | Except.ok seen =>
      if truthyStrOpt seen then dedupeCapAuxM oracle fp postMax fresh rest
      else
        let fresh2 := fresh ++ [it]
        if postMax ≤ fresh2.length then Except.ok fresh2
        else dedupeCapAuxM oracle fp postMax fresh2 rest

/-- The DedupeAndCap stage, started with an empty accumulator. -/
def dedupeCap (oracle : List Char → GetOutcome) (fp : List Char → List Char)
    (postMax : Nat) (l : List Scored) : Except Unit (List Scored) :=
  dedupeCapAuxM oracle fp postMax [] l

/-! ### Notify and mark-seen phase -/

/-- Outcome of one cache SET call: the underlying fetch can reject, or it
yields a response whose ok flag upstashSetEx returns. -/
inductive SetOutcome where
  | thrown : SetOutcome
  | resp : Bool → SetOutcome
  deriving DecidableEq

/-- upstashSetEx from the source: a rejected fetch propagates as an
exception; otherwise the ok flag of the response is returned and never
inspected by the caller. -/
def upstashSetEx : SetOutcome → Except Unit Bool
  | SetOutcome.thrown => Except.error ()
  | SetOutcome.resp ok => Except.ok ok

/-- Whether a SET call outcome is a rejection. -/
def setThrown : SetOutcome → Bool
  | SetOutcome.thrown => true
  | SetOutcome.resp _ => false

/-- Outcome of the single postDigestToSlack call: it either throws (a
non-2xx response or an ok false body raise an error in the source, and a
rejected fetch also propagates) or returns normally. -/
inductive NotifyOutcome where
  | thrown : NotifyOutcome
  | delivered : NotifyOutcome
  deriving DecidableEq

/-- An HTTP response of the handler, as status code and body text. -/
structure HandlerReply where
  status : Nat
  body : List Char
  deriving DecidableEq

def noNewItemsMsg : List Char := "OK - no new items".data

def postedDigestMsg (n : Nat) : List Char :=
  ("OK - posted digest with " ++ toString n ++ " items").data

/-- The tail of the handler after DedupeAndCap: if fresh is empty, reply
no new items at once; otherwise post the digest once (an exception of the
post aborts the run before any mark-seen write), then fire one SET call
per collected key through a gather that rejects if any call rejects, and
reply with the posted-digest message.  The result is the reply (or the
propagated exception), the number of digest posts attempted, and the list
of keys passed to the mark-seen writes. -/
def notifyPhase (fp : List Char → List Char) (notify : NotifyOutcome)
    (setOut : List Char → SetOutcome) (fresh : List Scored) :
    Except Unit HandlerReply × Nat × List (List Char) :=
  if fresh.length = 0 then
    (Except.ok ⟨200, noNewItemsMsg⟩, 0, [])
  else
    match notify with
    | NotifyOutcome.thrown => (Except.error (), 1, [])
    | NotifyOutcome.delivered =>
      let keys := fresh.map (fun it => fp it.url)
      if keys.all (fun k => !setThrown (setOut k)) then
        (Except.ok ⟨200, postedDigestMsg fresh.length⟩, 1, keys)
      else
        (Except.error (), 1, keys)

/-! ### Claims about the scorer (C7, C9) -/

/-- C7: the relevance score equals 3 points per matching term of the
high-signal set plus 2 points per matching term of the
infrastructure-vendor set, where a match is case-insensitive substring
containment in title ++ " " ++ summary; the score is a pure deterministic
function of title and summary, and the score of empty title and empty
summary is 0. -/
theorem c7_score_weighted_counts :
    (∀ title summary : List Char,
      scoreArticle title summary =
        3 * highTerms.countP (fun h => containsSub h (scoreText title summary))
        + 2 * infraTerms.countP (fun g => containsSub g (scoreText title summary)))
    ∧ scoreArticle [] [] = 0
    ∧ (∀ a b : Article, a.title = b.title → a.summary = b.summary →
        (addScore a).score = (addScore b).score) := by
  refine ⟨scoreArticle_eq_counts, by decide, ?_⟩
  intro a b ht hs
  simp [addScore, ht, hs]

/-- C7 witness: two articles sharing title and summary but with different
urls receive the same score. -/
theorem c7_witness :
    (addScore ⟨"gpu funding".data, "u1".data, "x".data, "f".data, "p".data⟩).score
      = (addScore ⟨"gpu funding".data, "u2".data, "x".data, "f".data, "p".data⟩).score :=
  c7_score_weighted_counts.2.2 _ _ rfl rfl

/-- C9 counterexample: the claim that the score is unbounded is false,
because each keyword contributes at most once (containment, not
occurrence count), so 76 bounds every score of the digest variant. -/
theorem c9_counterexample :
    ¬ (∀ B : Nat, ∃ title summary : List Char, B < scoreArticle title summary) := by
  intro h
  obtain ⟨t, s, hgt⟩ := h 76
  exact absurd hgt (not_lt.2 (scoreArticle_le_76 t s))

/-- C9 amended: the relevance score is bounded; it never exceeds 76
(3 points for each of the 20 high-signal terms plus 2 for each of the 8
infrastructure terms), since a term is counted once however often it
occurs. -/
theorem c9_amended_score_bounded (title summary : List Char) :
    scoreArticle title summary ≤ 76 :=
  scoreArticle_le_76 title summary

/-! ### Stable descending sort lemmas (for C3) -/

theorem insertDesc_perm (a : Scored) (l : List Scored) :
    List.Perm (insertDesc a l) (a :: l) := by
  induction l with
  | nil => simp [insertDesc]
  | cons b bs ih =>
    by_cases h : b.score ≤ a.score
    · simp [insertDesc, h]
    · simp only [insertDesc, if_neg h]
      exact (ih.cons b).trans (List.Perm.swap a b bs)

theorem sortByScoreDesc_perm (l : List Scored) :
    List.Perm (sortByScoreDesc l) l := by
  induction l with
  | nil => simp [sortByScoreDesc]
  | cons x xs ih =>
    exact (insertDesc_perm x (sortByScoreDesc xs)).trans (ih.cons x)

theorem insertDesc_pairwise (a : Scored) (l : List Scored)
    (h : l.Pairwise (fun x y => y.score ≤ x.score)) :
    (insertDesc a l).Pairwise (fun x y => y.score ≤ x.score) := by
  induction l with
  | nil => simp [insertDesc]
  | cons b bs ih =>
    rcases List.pairwise_cons.1 h with ⟨hb, hbs⟩
    by_cases hle : b.score ≤ a.score
    · simp only [insertDesc, if_pos hle]
      refine List.pairwise_cons.2 ⟨?_, h⟩
      intro y hy
      rcases List.mem_cons.1 hy with rfl | hy
      · exact hle
      · exact le_trans (hb y hy) hle
    · simp only [insertDesc, if_neg hle]
      refine List.pairwise_cons.2 ⟨?_, ih hbs⟩
      intro y hy
      rcases List.mem_cons.1 ((insertDesc_perm a bs).mem_iff.1 hy) with rfl | hy
      · exact le_of_not_le hle
      · exact hb y hy

theorem sortByScoreDesc_pairwise (l : List Scored) :
    (sortByScoreDesc l).Pairwise (fun x y => y.score ≤ x.score) := by
  induction l with
  | nil => simp [sortByScoreDesc]
  | cons x xs ih => exact insertDesc_pairwise x (sortByScoreDesc xs) ih

theorem insertDesc_filter_score (a : Scored) (c : Nat) (l : List Scored) :
    (insertDesc a l).filter (fun x => x.score = c) =
      if a.score = c then a :: l.filter (fun x => x.score = c)
      else l.filter (fun x => x.score = c) := by
  induction l with
  | nil => by_cases h : a.score = c <;> simp [insertDesc, h]
  | cons b bs ih =>
    by_cases hle : b.score ≤ a.score
    · simp only [insertDesc, if_pos hle]
      by_cases hac : a.score = c <;> simp [List.filter_cons, hac]
    · simp only [insertDesc, if_neg hle]
      have hlt : a.score < b.score := lt_of_not_le hle
      by_cases hac : a.score = c
      · have hbc : ¬ (b.score = c) := by omega
        simp [List.filter_cons, hbc, ih, hac]
      · simp [List.filter_cons, ih, hac]

theorem sortByScoreDesc_filter_score (c : Nat) (l : List Scored) :
    (sortByScoreDesc l).filter (fun x => x.score = c)
      = l.filter (fun x => x.score = c) := by
  induction l with
  | nil => rfl
  | cons x xs ih =>
    rw [sortByScoreDesc, insertDesc_filter_score, List.filter_cons]
    by_cases h : x.score = c <;> simp [h, ih]

/-- C3: the ScoreAndFilter stage outputs exactly those scored articles with
score at least minScore (a permutation of the filtered map), sorted in
descending order of score, and articles of equal score keep their original
relative order (the filter to any fixed score value is unchanged by the
sort). -/
theorem c3_scoreFilterSort_spec (minScore : Nat) (items : List Article) :
    List.Perm (scoreFilterSort minScore items)
        ((items.map addScore).filter (fun it => minScore ≤ it.score))
    ∧ (scoreFilterSort minScore items).Pairwise (fun a b => b.score ≤ a.score)
    ∧ ∀ c : Nat,
        (scoreFilterSort minScore items).filter (fun it => it.score = c)
          = ((items.map addScore).filter (fun it => minScore ≤ it.score)).filter
              (fun it => it.score = c) :=
  ⟨sortByScoreDesc_perm _, sortByScoreDesc_pairwise _,
    fun c => sortByScoreDesc_filter_score c _⟩

/-! ### DedupeAndCap lemmas (C4, C2) -/

theorem dedupeCapAuxM_spec (oracle : List Char → GetOutcome) (fp : List Char → List Char)
    (postMax : Nat) :
    ∀ l fresh : List Scored,
      (∀ it ∈ l, oracle (fp it.url) ≠ GetOutcome.thrown) →
      fresh.length < postMax →
      dedupeCapAuxM oracle fp postMax fresh l =
        Except.ok (fresh ++ (l.filter (fun it => !seenB oracle fp it)).take
          (postMax - fresh.length)) := by
  intro l
  induction l with
  | nil => intro fresh _ _; simp [dedupeCapAuxM]
  | cons it rest ih =>
    intro fresh h hlen
    have hit : oracle (fp it.url) ≠ GetOutcome.thrown := h it (List.mem_cons_self it rest)
    have hrest : ∀ x ∈ rest, oracle (fp x.url) ≠ GetOutcome.thrown :=
      fun x hx => h x (List.mem_cons_of_mem it hx)
    rcases hG : oracle (fp it.url) with _ | ⟨ok, result⟩
    · exact absurd hG hit
    · have hseen : seenB oracle fp it = truthyStrOpt (if ok then result else none) := by
        simp [seenB, hG, upstashGet]
      by_cases ht : truthyStrOpt (if ok then result else none) = true
      · have hs : seenB oracle fp it = true := hseen.trans ht
        simp only [dedupeCapAuxM, hG, upstashGet, ht, if_pos, List.filter_cons, hs,
          Bool.not_true, Bool.false_eq_true, ite_false]
        exact ih fresh hrest hlen
      · have hsf : seenB oracle fp it = false := by
          rw [hseen]; simpa using ht
        have hs : (!seenB oracle fp it) = true := by rw [hsf]; rfl
        have htf : truthyStrOpt (if ok then result else none) = false := by
          simpa using ht
        simp only [dedupeCapAuxM, hG, upstashGet, htf, Bool.false_eq_true, ite_false,
          List.filter_cons, hs, ite_true]
        by_cases hcap : postMax ≤ (fresh ++ [it]).length
        · rw [if_pos hcap]
          have hpm1 : postMax - fresh.length = 1 := by
            simp only [List.length_append, List.length_cons, List.length_nil] at hcap ⊢
            omega
          rw [hpm1, List.take_succ_cons, List.take_zero]
        · rw [if_neg hcap]
          have hlen2 : (fresh ++ [it]).length < postMax := lt_of_not_le hcap
          rw [ih (fresh ++ [it]) hrest hlen2]
          obtain ⟨k, hk⟩ : ∃ k, postMax - fresh.length = k + 1 :=
            ⟨postMax - fresh.length - 1, by omega⟩
          have hk2 : postMax - (fresh ++ [it]).length = k := by
            simp only [List.length_append, List.length_cons, List.length_nil]
            omega
          rw [hk, hk2, List.take_succ_cons, List.append_assoc, List.singleton_append]

/-- C4: when every cache query of the run completes with a response, the
DedupeAndCap loop returns the unseen items in input order capped at
postMax; with more than postMax unseen items exactly postMax are returned;
a score-descending input yields a score-descending result; and a pair of a
seen article A and an unseen article B yields exactly B. -/
theorem c4_dedupeCap_spec (oracle : List Char → GetOutcome) (fp : List Char → List Char)
    (postMax : Nat) (l : List Scored) (hpm : 1 ≤ postMax)
    (hok : ∀ it ∈ l, oracle (fp it.url) ≠ GetOutcome.thrown) :
    dedupeCap oracle fp postMax l =
        Except.ok ((l.filter (fun it => !seenB oracle fp it)).take postMax)
    ∧ (postMax < (l.filter (fun it => !seenB oracle fp it)).length →
        ((l.filter (fun it => !seenB oracle fp it)).take postMax).length = postMax)
    ∧ (l.Pairwise (fun a b => b.score ≤ a.score) →
        ((l.filter (fun it => !seenB oracle fp it)).take postMax).Pairwise
          (fun a b => b.score ≤ a.score))
    ∧ (∀ A B : Scored, seenB oracle fp A = true → seenB oracle fp B = false →
        oracle (fp A.url) ≠ GetOutcome.thrown → oracle (fp B.url) ≠ GetOutcome.thrown →
        dedupeCap oracle fp postMax [A, B] = Except.ok [B]) := by
  refine ⟨?_, ?_, ?_, ?_⟩
  · have h := dedupeCapAuxM_spec oracle fp postMax l [] hok (by simpa using hpm)
    simpa [dedupeCap] using h
  · intro hgt
    rw [List.length_take]
    omega
  · intro hp
    exact hp.sublist ((List.take_sublist _ _).trans (List.filter_sublist _))
  · intro A B hA hB hAok hBok
    have hok2 : ∀ it ∈ [A, B], oracle (fp it.url) ≠ GetOutcome.thrown := by
      intro x hx
      rcases List.mem_cons.1 hx with rfl | hx
      · exact hAok
      · rcases List.mem_cons.1 hx with rfl | hx
        · exact hBok
        · exact absurd hx (List.not_mem_nil x)
    have h := dedupeCapAuxM_spec oracle fp postMax [A, B] [] hok2 (by simpa using hpm)
    obtain ⟨m, rfl⟩ : ∃ m, postMax = m + 1 := ⟨postMax - 1, by omega⟩
    simpa [dedupeCap, List.filter_cons, hA, hB] using h

/-- Sample articles for concrete instances. -/
def artA : Scored := ⟨⟨"a".data, "ua".data, "sa".data, "f".data, "p".data⟩, 5⟩

def artB : Scored := ⟨⟨"b".data, "ub".data, "sb".data, "f".data, "p".data⟩, 4⟩

def artU : Scored := ⟨⟨"t".data, "uu".data, "su".data, "f".data, "p".data⟩, 3⟩

/-- Cache oracle for the C4 witness: the key ua is marked seen, everything
else is unseen. -/
def seenOracleW : List Char → GetOutcome := fun k =>
  if k = "ua".data then GetOutcome.resp true (some "1".data) else GetOutcome.resp true none

/-- C4 witness: with article ua seen and ub unseen, the loop yields only
the ub article. -/
theorem c4_witness :
    dedupeCap seenOracleW (fun u => u) 10 [artA, artB] = Except.ok [artB] := by
  have h := c4_dedupeCap_spec seenOracleW (fun u => u) 10 [artA, artB]
    (by decide) (by decide)
  rw [h.1]
  exact congrArg Except.ok (by decide)

/-- C2 counterexample: when the GET fetch itself rejects (the store is
unreachable at transport level), upstashGet does not report not seen but
propagates the exception, and the run aborts instead of treating the
article as unseen. -/
theorem c2_counterexample :
    upstashGet GetOutcome.thrown ≠ Except.ok none
    ∧ dedupeCap (fun _ => GetOutcome.thrown) (fun u => u) 10 [artU] = Except.error ()
    ∧ dedupeCap (fun _ => GetOutcome.thrown) (fun u => u) 10 [artU] ≠ Except.ok [artU] := by
  refine ⟨fun h => Except.noConfusion h, rfl, fun h => Except.noConfusion h⟩

/-- C2 amended: a cache query that completes with a non-success response
reports null, the seen check treats the article as unseen, and a
single-article run then includes the article; but a query whose underlying
fetch rejects propagates the exception and aborts the run. -/
theorem c2_amended (oracle : List Char → GetOutcome) (fp : List Char → List Char) :
    (∀ r : Option (List Char), upstashGet (GetOutcome.resp false r) = Except.ok none)
    ∧ (∀ (it : Scored) (r : Option (List Char)),
        oracle (fp it.url) = GetOutcome.resp false r → seenB oracle fp it = false)
    ∧ (∀ (it : Scored) (r : Option (List Char)) (postMax : Nat), 1 ≤ postMax →
        oracle (fp it.url) = GetOutcome.resp false r →
        dedupeCap oracle fp postMax [it] = Except.ok [it])
    ∧ (∀ (postMax : Nat) (fresh : List Scored) (it : Scored) (rest : List Scored),
        oracle (fp it.url) = GetOutcome.thrown →
        dedupeCapAuxM oracle fp postMax fresh (it :: rest) = Except.error ()) := by
  refine ⟨fun r => rfl, ?_, ?_, ?_⟩
  · intro it r h
    simp [seenB, h, upstashGet, truthyStrOpt]
  · intro it r postMax hpm h
    simp only [dedupeCap, dedupeCapAuxM, h, upstashGet, Bool.false_eq_true, ite_false,
      truthyStrOpt, List.nil_append]
    split
    · rfl
    · rfl
  · intro postMax fresh it rest h
    simp [dedupeCapAuxM, h, upstashGet]

/-- C2 witness: with a cache answering every query with a non-success
response, the seen check reports false and a one-article run keeps the
article. -/
theorem c2_witness :
    seenB (fun _ => GetOutcome.resp false none) (fun u => u) artU = false
    ∧ dedupeCap (fun _ => GetOutcome.resp false none) (fun u => u) 10 [artU]
        = Except.ok [artU] :=
  ⟨(c2_amended (fun _ => GetOutcome.resp false none) (fun u => u)).2.1 artU none rfl,
    (c2_amended (fun _ => GetOutcome.resp false none) (fun u => u)).2.2.1 artU none 10
      (by decide) rfl⟩

/-! ### Notify and mark-seen claims (C1, C8) -/

/-- C1 counterexample: a mark-seen write whose underlying fetch rejects
makes the joined writes reject, so the handler does not complete with its
success status even though the notify succeeded. -/
theorem c1_counterexample :
    (notifyPhase (fun u => u) NotifyOutcome.delivered (fun _ => SetOutcome.thrown)
        [artU]).1 = Except.error ()
    ∧ (notifyPhase (fun u => u) NotifyOutcome.delivered (fun _ => SetOutcome.thrown)
        [artU]).1 ≠ Except.ok ⟨200, postedDigestMsg 1⟩ :=
  ⟨rfl, fun h => Except.noConfusion h⟩

/-- C1 amended: after a successful notify the handler passes every included
fingerprint to a mark-seen write, and as long as each of these write calls
completes with a response, the handler returns its success status no
matter which writes report ok and which report failure; a write whose
underlying fetch rejects instead propagates and fails the run. -/
theorem c1_amended (fp : List Char → List Char) (setOut : List Char → SetOutcome)
    (fresh : List Scored) (hne : fresh ≠ [])
    (hresp : ∀ k ∈ fresh.map (fun it => fp it.url), setThrown (setOut k) = false) :
    notifyPhase fp NotifyOutcome.delivered setOut fresh =
      (Except.ok ⟨200, postedDigestMsg fresh.length⟩, 1,
        fresh.map (fun it => fp it.url)) := by
  have hlen : ¬ (fresh.length = 0) := by
    simpa [List.length_eq_zero] using hne
  have hall : (fresh.map (fun it => fp it.url)).all
      (fun k => !setThrown (setOut k)) = true := by
    rw [List.all_eq_true]
    intro k hk
    rw [hresp k hk]
    rfl
  unfold notifyPhase
  rw [if_neg hlen]
  simp [hall]

/-- C1 witness: one article whose single mark-seen write completes with a
failing response; the run still returns the posted-digest status and the
fingerprint of the article was passed to the write. -/
theorem c1_witness :
    notifyPhase (fun u => u) NotifyOutcome.delivered (fun _ => SetOutcome.resp false)
        [artU]
      = (Except.ok ⟨200, postedDigestMsg 1⟩, 1, ["uu".data]) := by
  have h := c1_amended (fun u => u) (fun _ => SetOutcome.resp false) [artU]
    (by decide) (by intro k _; rfl)
  exact h

/-- C8: with an empty accumulated set the run replies no new items, never
invokes the notifier, and marks nothing seen; with a nonempty set the
notifier is invoked exactly once, whatever the notify and write outcomes
are. -/
theorem c8_notifyPhase_spec (fp : List Char → List Char) (notify : NotifyOutcome)
    (setOut : List Char → SetOutcome) (fresh : List Scored) :
    (fresh = [] → notifyPhase fp notify setOut fresh =
        (Except.ok ⟨200, noNewItemsMsg⟩, 0, []))
    ∧ (fresh ≠ [] → (notifyPhase fp notify setOut fresh).2.1 = 1) := by
  constructor
  · rintro rfl
    rfl
  · intro hne
    have hlen : ¬ (fresh.length = 0) := by simpa [List.length_eq_zero] using hne
    unfold notifyPhase
    rw [if_neg hlen]
    cases notify
    · rfl
    · dsimp only
      split <;> rfl

/-- C8 witness: the empty set replies no new items with zero notifier
calls, and a one-article set invokes the notifier exactly once. -/
theorem c8_witness :
    notifyPhase (fun u => u) NotifyOutcome.delivered (fun _ => SetOutcome.resp true) []
      = (Except.ok ⟨200, noNewItemsMsg⟩, 0, [])
    ∧ (notifyPhase (fun u => u) NotifyOutcome.delivered (fun _ => SetOutcome.resp true)
        [artU]).2.1 = 1 :=
  ⟨(c8_notifyPhase_spec (fun u => u) NotifyOutcome.delivered
      (fun _ => SetOutcome.resp true) []).1 rfl,
    (c8_notifyPhase_spec (fun u => u) NotifyOutcome.delivered
      (fun _ => SetOutcome.resp true) [artU]).2 (by decide)⟩

/-! ### Condenser claims (C5, C6, C10) -/

theorem collapseAux_allWs :
    ∀ (s : List Char), (∀ c ∈ s, jsWs c = true) →
      ∀ (b : Bool), ∀ d ∈ collapseAux b s, jsWs d = true := by
  intro s
  induction s with
  | nil =>
    intro _ b d hd
    simp [collapseAux] at hd
  | cons c cs ih =>
    intro hws b d hd
    have hc : jsWs c = true := hws c (List.mem_cons_self c cs)
    have hcs : ∀ x ∈ cs, jsWs x = true := fun x hx => hws x (List.mem_cons_of_mem c hx)
    cases b
    · simp only [collapseAux, hc, if_true] at hd
      rcases List.mem_cons.1 hd with rfl | hd
      · decide
      · exact ih hcs true d hd
    · simp only [collapseAux, hc, if_true] at hd
      exact ih hcs true d hd

theorem cleanOf_allWs (s : List Char) (hws : ∀ c ∈ s, jsWs c = true) :
    cleanOf s = [] := by
  have h : trimLeft (collapseWs s) = [] := by
    rw [trimLeft, List.dropWhile_eq_nil_iff]
    exact fun d hd => collapseAux_allWs s hws false d hd
  rw [cleanOf, jsTrim, h]
  rfl

/-- C5: the condenser maps empty or whitespace-only input to the empty
sequence; on input whose cleaned form splits into at least maxBullets
sentences it returns exactly the first maxBullets of them; and the
concrete three-sentence example with maxBullets 2 yields the first two
sentences with their punctuation. -/
theorem c5_condenser_spec :
    (∀ (s : List Char) (maxB : Nat), (∀ c ∈ s, jsWs c = true) →
        makeSummaryBullets s maxB = [])
    ∧ (∀ (s : List Char) (maxB : Nat),
        maxB ≤ (sentencesOf (cleanOf s)).length →
        makeSummaryBullets s maxB = (sentencesOf (cleanOf s)).take maxB)
    ∧ makeSummaryBullets "One. Two. Three.".data 2 = ["One.".data, "Two.".data] := by
  refine ⟨?_, ?_, by decide⟩
  · intro s maxB hws
    simp only [makeSummaryBullets]
    by_cases hse : s.isEmpty
    · rw [if_pos hse]
    · rw [if_neg hse]
      have hclean : cleanOf s = [] := cleanOf_allWs s hws
      simp [hclean]
  · intro s maxB hlen
    simp only [makeSummaryBullets]
    split_ifs with h1 h2
    · have hs : s = [] := List.isEmpty_iff.1 h1
      subst hs
      have hz : (sentencesOf (cleanOf ([] : List Char))).length = 0 := by decide
      have hmb : maxB = 0 := by omega
      subst hmb
      rfl
    · have hc : cleanOf s = [] := List.isEmpty_iff.1 h2
      rw [hc] at hlen ⊢
      have hz : (sentencesOf ([] : List Char)).length = 0 := by decide
      have hmb : maxB = 0 := by omega
      subst hmb
      rfl
    · rfl

/-- C5 witness: a whitespace-only input gives no bullets, and an input
with three sentences and maxBullets 1 gives exactly the first sentence. -/
theorem c5_witness :
    makeSummaryBullets "  ".data 2 = []
    ∧ makeSummaryBullets "A. B. C.".data 1 = ["A.".data] := by
  constructor
  · exact c5_condenser_spec.1 "  ".data 2 (by decide)
  · exact (c5_condenser_spec.2.1 "A. B. C.".data 1 (by decide)).trans (by decide)

/-- C6: on input that collapses to exactly one sentence longer than 180
characters, the condenser with the default maxBullets of 2 bisects the
cleaned text at the first space at or after the character midpoint,
yielding the two trimmed halves; when no space exists at or after the
midpoint it returns the single sentence unsplit. -/
theorem c6_single_long_sentence (s : List Char)
    (hone : sentencesOf (cleanOf s) = [cleanOf s])
    (hlong : 180 < (cleanOf s).length) :
    (∀ i, indexOfFrom (cleanOf s) ' ' ((cleanOf s).length / 2) = some i →
        makeSummaryBullets s 2 =
          [jsTrim ((cleanOf s).take i), jsTrim ((cleanOf s).drop i)])
    ∧ (indexOfFrom (cleanOf s) ' ' ((cleanOf s).length / 2) = none →
        makeSummaryBullets s 2 = [cleanOf s]) := by
  have hcne : cleanOf s ≠ [] := by
    intro h
    rw [h] at hlong
    simp at hlong
  have hsne : ¬ s.isEmpty = true := by
    intro h
    have hs : s = [] := List.isEmpty_iff.1 h
    subst hs
    exact hcne rfl
  have hcwe : ¬ (cleanOf s).isEmpty = true := by
    intro h
    exact hcne (List.isEmpty_iff.1 h)
  have hlen1 : (sentencesOf (cleanOf s)).length = 1 := by rw [hone]; rfl
  have hcond1 : ¬ (2 ≤ (sentencesOf (cleanOf s)).length) := by omega
  have hcond2 : (sentencesOf (cleanOf s)).length = 1 ∧ 180 < (cleanOf s).length :=
    ⟨hlen1, hlong⟩
  constructor
  · intro i hi
    simp only [makeSummaryBullets]
    rw [if_neg hsne, if_neg hcwe, if_neg hcond1, if_pos hcond2, hi]
  · intro hi
    simp only [makeSummaryBullets]
    rw [if_neg hsne, if_neg hcwe, if_neg hcond1, if_pos hcond2, hi, hone]

/-- A 201-character single sentence with one space at its midpoint. -/
def longSent : List Char := List.replicate 100 'a' ++ ' ' :: List.replicate 100 'b'

set_option maxRecDepth 8000 in
/-- C6 witness: the 201-character sentence is bisected at its midpoint
space into two 100-character bullets. -/
theorem c6_witness :
    makeSummaryBullets longSent 2
      = [List.replicate 100 'a', List.replicate 100 'b'] := by
  have h := (c6_single_long_sentence longSent (by decide) (by decide)).1 100 (by decide)
  rw [h]
  decide

/-! ### Condenser output invariant (C10) -/

/-- The first character, if any, is not whitespace. -/
def noWsHead : List Char → Bool
  | [] => true
  | c :: _ => !jsWs c

/-- No leading and no trailing whitespace. -/
def noWsEdge (l : List Char) : Bool := noWsHead l && noWsHead l.reverse

theorem noWsHead_dropWhile (l : List Char) : noWsHead (l.dropWhile jsWs) = true := by
  induction l with
  | nil => rfl
  | cons c cs ih =>
    rw [List.dropWhile_cons]
    by_cases h : jsWs c = true
    · rw [if_pos h]
      exact ih
    · rw [if_neg h]
      simp only [noWsHead]
      simpa using h

theorem noWsHead_of_isPrefix (x y : List Char) (h : x <+: y)
    (hy : noWsHead y = true) : noWsHead x = true := by
  obtain ⟨t, rfl⟩ := h
  cases x with
  | nil => rfl
  | cons c cs => exact hy

theorem trimRight_isPrefix (l : List Char) : trimRight l <+: l := by
  rw [trimRight]
  have h : l.reverse.dropWhile jsWs <:+ l.reverse := List.dropWhile_suffix _
  have h2 := List.reverse_prefix.2 h
  rwa [List.reverse_reverse] at h2

theorem jsTrim_noWsEdge (l : List Char) : noWsEdge (jsTrim l) = true := by
  rw [noWsEdge, Bool.and_eq_true]
  constructor
  · exact noWsHead_of_isPrefix _ _ (trimRight_isPrefix (trimLeft l))
      (noWsHead_dropWhile l)
  · rw [jsTrim, trimRight, List.reverse_reverse]
    exact noWsHead_dropWhile _

theorem allWs_dropWhile_iff (l : List Char) :
    (∀ c ∈ l.dropWhile jsWs, jsWs c = true) ↔ (∀ c ∈ l, jsWs c = true) := by
  constructor
  · intro h c hc
    rw [← List.takeWhile_append_dropWhile (p := jsWs) (l := l)] at hc
    rcases List.mem_append.1 hc with hc | hc
    · exact List.mem_takeWhile_imp hc
    · exact h c hc
  · intro h c hc
    exact h c ((List.dropWhile_suffix jsWs).sublist.subset hc)

theorem jsTrim_eq_nil_iff (l : List Char) :
    jsTrim l = [] ↔ ∀ c ∈ l, jsWs c = true := by
  rw [jsTrim, trimRight, List.reverse_eq_nil_iff, List.dropWhile_eq_nil_iff]
  constructor
  · intro h
    refine (allWs_dropWhile_iff l).1 ?_
    intro c hc
    exact h c (List.mem_reverse.2 hc)
  · intro h c hc
    exact (allWs_dropWhile_iff l).2 h c (List.mem_reverse.1 hc)

theorem jsTrim_ne_nil (l : List Char) (c : Char) (hc : c ∈ l)
    (hnw : jsWs c = false) : jsTrim l ≠ [] := by
  intro h
  have hw := (jsTrim_eq_nil_iff l).1 h c hc
  rw [hnw] at hw
  exact Bool.noConfusion hw

theorem sentencesOf_mem (cleaned b : List Char) (hb : b ∈ sentencesOf cleaned) :
    b ≠ [] ∧ noWsEdge b = true := by
  rw [sentencesOf] at hb
  have hb2 := List.mem_filter.1 hb
  obtain ⟨a, _, rfl⟩ := List.mem_map.1 hb2.1
  refine ⟨?_, jsTrim_noWsEdge a⟩
  intro h
  rw [h] at hb2
  simp at hb2

theorem findIdx?_some_bounds {α : Type} (p : α → Bool) :
    ∀ (l : List α) (i j : Nat), List.findIdx? p l i = some j →
      i ≤ j ∧ j < i + l.length := by
  intro l
  induction l with
  | nil =>
    intro i j h
    rw [List.findIdx?_nil] at h
    exact Option.noConfusion h
  | cons a t ih =>
    intro i j h
    rw [List.findIdx?_cons] at h
    by_cases hp : p a = true
    · rw [if_pos hp] at h
      have hj : i = j := Option.some_inj.1 h
      subst hj
      simp
    · rw [if_neg hp] at h
      have := ih (i + 1) j h
      constructor
      · omega
      · simp only [List.length_cons]
        omega

theorem indexOfFrom_some_bounds (l : List Char) (c : Char) (start i : Nat)
    (h : indexOfFrom l c start = some i) : start ≤ i ∧ i < l.length := by
  rw [indexOfFrom] at h
  rcases hf : (l.drop start).findIdx? (fun d => d = c) with _ | j
  · rw [hf] at h
    exact Option.noConfusion h
  · rw [hf] at h
    have hj := findIdx?_some_bounds (fun d => d = c) (l.drop start) 0 j hf
    have hi : i = start + j := (Option.some_inj.1 h).symm
    have hlen := List.length_drop start l
    -- the drop is nonempty, so start < l.length
    have hd : (l.drop start).length ≤ l.length - start := le_of_eq hlen
    have hjj : j < (l.drop start).length := by omega
    have hstart : start < l.length := by
      by_contra hge
      have : l.drop start = [] := List.drop_eq_nil_of_le (by omega)
      rw [this] at hjj
      simp at hjj
    constructor
    · omega
    · rw [hlen] at hjj
      omega

theorem getLast_mem_drop :
    ∀ (n : Nat) (l : List Char) (h : n < l.length) (hne : l ≠ []),
      l.getLast hne ∈ l.drop n := by
  intro n
  induction n with
  | zero =>
    intro l _h hne
    rw [List.drop_zero]
    exact List.getLast_mem hne
  | succ k ih =>
    intro l h hne
    rcases l with _ | ⟨a, t⟩
    · simp at h
    · rw [List.drop_succ_cons]
      have ht : t ≠ [] := by
        intro he
        subst he
        simp at h
      have hlen : k < t.length := by
        simpa using h
      have hmem := ih t hlen ht
      rwa [List.getLast_cons ht]

theorem reverse_head_not_ws (l : List Char) (hne : l ≠ [])
    (h : noWsHead l.reverse = true) : jsWs (l.getLast hne) = false := by
  have hrne : l.reverse ≠ [] := by
    intro hr
    exact hne (by simpa using congrArg List.reverse hr)
  rcases hr : l.reverse with _ | ⟨c1, t1⟩
  · exact absurd hr hrne
  · have hgl : l.getLast hne = c1 := by
      have h1 : l.getLast? = some c1 := by
        rw [List.getLast?_eq_head?_reverse, hr]
        rfl
      have h2 := List.getLast?_eq_getLast l hne
      rw [h1] at h2
      exact (Option.some_inj.1 h2).symm
    rw [hgl]
    rw [hr] at h
    simpa [noWsHead] using h

/-- C10: for every input string and every maxBullets of at least 1, the
condenser returns at most maxBullets bullets, and every returned bullet is
a nonempty string with neither leading nor trailing whitespace. -/
theorem c10_condenser_invariant (s : List Char) (maxB : Nat) (hmb : 1 ≤ maxB) :
    (makeSummaryBullets s maxB).length ≤ maxB
    ∧ ∀ b ∈ makeSummaryBullets s maxB, b ≠ [] ∧ noWsEdge b = true := by
  simp only [makeSummaryBullets]
  split_ifs with h1 h2 h3 h4
  · simp
  · simp
  · constructor
    · rw [List.length_take]
      exact min_le_left _ _
    · intro b hb
      exact sentencesOf_mem _ b (List.mem_of_mem_take hb)
  · rcases h4 with ⟨hlen1, hlong⟩
    have hcne : cleanOf s ≠ [] := by
      intro h
      rw [h] at hlong
      simp at hlong
    have hedge : noWsEdge (cleanOf s) = true := by
      rw [cleanOf]
      exact jsTrim_noWsEdge _
    have hsplit : noWsHead (cleanOf s) = true ∧ noWsHead (cleanOf s).reverse = true := by
      rw [noWsEdge, Bool.and_eq_true] at hedge
      exact hedge
    have hhead : noWsHead (cleanOf s) = true := hsplit.1
    have htail : noWsHead (cleanOf s).reverse = true := hsplit.2
    rcases hio : indexOfFrom (cleanOf s) ' ' ((cleanOf s).length / 2) with _ | i
    · simp only [hio]
      constructor
      · omega
      · intro b hb
        exact sentencesOf_mem _ b hb
    · simp only [hio]
      obtain ⟨hi1, hi2⟩ :=
        indexOfFrom_some_bounds (cleanOf s) ' ' ((cleanOf s).length / 2) i hio
      have h2mb : 2 ≤ maxB := by omega
      constructor
      · simpa using h2mb
      · intro b hb
        have hipos : 1 ≤ i := by omega
        obtain ⟨c0, t0, hct⟩ : ∃ c0 t0, cleanOf s = c0 :: t0 := by
          rcases hcs : cleanOf s with _ | ⟨x, xs⟩
          · exact absurd hcs hcne
          · exact ⟨x, xs, rfl⟩
        have hc0 : jsWs c0 = false := by
          rw [hct] at hhead
          simpa [noWsHead] using hhead
        have hmem0 : c0 ∈ (cleanOf s).take i := by
          rw [hct]
          obtain ⟨k, rfl⟩ : ∃ k, i = k + 1 := ⟨i - 1, by omega⟩
          rw [List.take_succ_cons]
          exact List.mem_cons_self _ _
        have hlast : jsWs ((cleanOf s).getLast hcne) = false :=
          reverse_head_not_ws _ hcne htail
        have hmemL : (cleanOf s).getLast hcne ∈ (cleanOf s).drop i :=
          getLast_mem_drop i (cleanOf s) hi2 hcne
        rcases List.mem_cons.1 hb with rfl | hb
        · exact ⟨jsTrim_ne_nil _ c0 hmem0 hc0, jsTrim_noWsEdge _⟩
        · rcases List.mem_cons.1 hb with rfl | hb
          · exact ⟨jsTrim_ne_nil _ _ hmemL hlast, jsTrim_noWsEdge _⟩
          · exact absurd hb (List.not_mem_nil b)
  · constructor
    · omega
    · intro b hb
      exact sentencesOf_mem _ b hb

/-- C10 witness: a padded two-sentence input with maxBullets 2 satisfies
the cap and the nonempty trimmed-bullet property. -/
theorem c10_witness :
    (makeSummaryBullets "  Hi there. Second one here.  ".data 2).length ≤ 2
    ∧ ∀ b ∈ makeSummaryBullets "  Hi there. Second one here.  ".data 2,
        b ≠ [] ∧ noWsEdge b = true :=
  c10_condenser_invariant "  Hi there. Second one here.  ".data 2 (by decide)

end NewsBot
